import Mathlib

/-!
Verification development for the mode-calculation core of the `scri`
repository (`mode_calculations.py`).

Floating-point numbers are modelled by exact rationals, complex numbers by
pairs of rationals.  The external ladder-coefficient provider
`spherical_functions.ladder_operator_coefficient` is modelled by an
arbitrary function `lad : ℤ → ℤ → ℚ` (the source treats it as a pure
external scalar function).  The external eigensolver `np.linalg.eigh`, the
linear solver `np.linalg.solve` and `math.sqrt` are modelled through their
documented contracts, as noted at each definition.
-/

/-- Complex numbers with exact rational parts, modelling the `c16` values of
the source. -/
structure Cx where
  re : ℚ
  im : ℚ
deriving DecidableEq, Repr

def Cx.add : Cx → Cx → Cx
  | ⟨a, b⟩, ⟨c, d⟩ => ⟨a + c, b + d⟩

def Cx.mul : Cx → Cx → Cx
  | ⟨a, b⟩, ⟨c, d⟩ => ⟨a * c - b * d, a * d + b * c⟩

def Cx.sub : Cx → Cx → Cx
  | ⟨a, b⟩, ⟨c, d⟩ => ⟨a - c, b - d⟩

/-- Complex conjugation, modelling `np.conjugate`. -/
def Cx.conj : Cx → Cx
  | ⟨a, b⟩ => ⟨a, -b⟩

instance : Zero Cx := ⟨⟨0, 0⟩⟩
instance : Add Cx := ⟨Cx.add⟩
instance : Mul Cx := ⟨Cx.mul⟩
instance : Sub Cx := ⟨Cx.sub⟩

instance : AddCommMonoid Cx where
  add_assoc a b c := by
    cases a; cases b; cases c
    show Cx.add (Cx.add _ _) _ = Cx.add _ (Cx.add _ _)
    simp only [Cx.add, Cx.mk.injEq]
    exact ⟨by ring, by ring⟩
  zero_add a := by
    cases a
    show Cx.add ⟨0, 0⟩ _ = _
    simp [Cx.add]
  add_zero a := by
    cases a
    show Cx.add _ ⟨0, 0⟩ = _
    simp [Cx.add]
  add_comm a b := by
    cases a; cases b
    show Cx.add _ _ = Cx.add _ _
    simp only [Cx.add, Cx.mk.injEq]
    exact ⟨by ring, by ring⟩
  nsmul := nsmulRec

/-- The additive-monoid morphism extracting the imaginary part. -/
def Cx.imHom : Cx →+ ℚ :=
  ⟨⟨Cx.im, rfl⟩, fun a b => by cases a; cases b; rfl⟩

/-- A mode time series, modelling the data a `WaveformModes` object feeds to
the accumulators: `n_times`, `n_modes`, the mode index table `LM` (row
`k ↦ (ell, m)`, with `m` varying contiguously inside each fixed-`ell`
block), the complex mode coefficients `data[i_time, i_mode]` and their time
derivative `data_dot`.  The mode-column index is an integer so that the
source's raw index arithmetic `i_mode ± 1`, `i_mode ± 2` is mirrored
exactly. -/
structure SpinSeries where
  n_times : ℕ
  n_modes : ℕ
  lm : ℤ → ℤ × ℤ
  data : ℕ → ℤ → Cx
  data_dot : ℕ → ℤ → Cx

section Terms

variable (lad : ℤ → ℤ → ℚ) (data1 data2 : ℕ → ℤ → Cx) (lm : ℤ → ℤ × ℤ)

/-- `L+` first-moment term of `_LdtVector` / `_LVector` (source lines 28-30
and 70-72): `conj(data1[i, k+1]) * data2[i, k] * ladder(L, M)` when
`M + 1 <= L`, else `0`. -/
def termLp (i : ℕ) (k : ℤ) : Cx :=
  let L := (lm k).1
  let M := (lm k).2
  if M + 1 ≤ L then (data1 i (k + 1)).conj * data2 i k * ⟨lad L M, 0⟩ else 0

/-- `L-` first-moment term (source lines 31-33 and 73-75). -/
def termLm (i : ℕ) (k : ℤ) : Cx :=
  let L := (lm k).1
  let M := (lm k).2
  if M - 1 ≥ -L then (data1 i (k - 1)).conj * data2 i k * ⟨lad L (-M), 0⟩ else 0

/-- `Lz` first-moment term (source lines 34 and 76). -/
def termLz (i : ℕ) (k : ℤ) : Cx :=
  (data1 i k).conj * data2 i k * ⟨((lm k).2 : ℚ), 0⟩

/-- `L+L+` second-moment term (source lines 122-124 and 210-212). -/
def termLpLp (i : ℕ) (k : ℤ) : Cx :=
  let L := (lm k).1
  let M := (lm k).2
  if M + 2 ≤ L then (data1 i (k + 2)).conj * data2 i k * ⟨lad L (M + 1) * lad L M, 0⟩ else 0

/-- `L+L-` second-moment term (source lines 125-127 and 213-215). -/
def termLpLm (i : ℕ) (k : ℤ) : Cx :=
  let L := (lm k).1
  let M := (lm k).2
  if M - 1 ≥ -L then (data1 i k).conj * data2 i k * ⟨lad L (M - 1) * lad L (-M), 0⟩ else 0

/-- `L-L+` second-moment term (source lines 128-130 and 216-218). -/
def termLmLp (i : ℕ) (k : ℤ) : Cx :=
  let L := (lm k).1
  let M := (lm k).2
  if M + 1 ≤ L then (data1 i k).conj * data2 i k * ⟨lad L (-(M + 1)) * lad L M, 0⟩ else 0

/-- `L-L-` second-moment term (source lines 131-134 and 219-222). -/
def termLmLm (i : ℕ) (k : ℤ) : Cx :=
  let L := (lm k).1
  let M := (lm k).2
  if M - 2 ≥ -L then (data1 i (k - 2)).conj * data2 i k * ⟨lad L (-(M - 1)) * lad L (-M), 0⟩ else 0

/-- `L+Lz` second-moment term (source lines 135-137 and 223-225). -/
def termLpLz (i : ℕ) (k : ℤ) : Cx :=
  let L := (lm k).1
  let M := (lm k).2
  if M + 1 ≤ L then (data1 i (k + 1)).conj * data2 i k * ⟨lad L M * (M : ℚ), 0⟩ else 0

/-- `LzL+` second-moment term (source lines 138-140 and 226-228). -/
def termLzLp (i : ℕ) (k : ℤ) : Cx :=
  let L := (lm k).1
  let M := (lm k).2
  if M + 1 ≤ L then (data1 i (k + 1)).conj * data2 i k * ⟨((M : ℚ) + 1) * lad L M, 0⟩ else 0

/-- `L-Lz` second-moment term (source lines 141-143 and 229-231). -/
def termLmLz (i : ℕ) (k : ℤ) : Cx :=
  let L := (lm k).1
  let M := (lm k).2
  if M - 1 ≥ -L then (data1 i (k - 1)).conj * data2 i k * ⟨lad L (-M) * (M : ℚ), 0⟩ else 0

/-- `LzL-` second-moment term (source lines 144-146 and 232-234). -/
def termLzLm (i : ℕ) (k : ℤ) : Cx :=
  let L := (lm k).1
  let M := (lm k).2
  if M - 1 ≥ -L then (data1 i (k - 1)).conj * data2 i k * ⟨((M : ℚ) - 1) * lad L (-M), 0⟩ else 0

/-- `LzLz` second-moment term (source lines 147 and 235). -/
def termLzLz (i : ℕ) (k : ℤ) : Cx :=
  (data1 i k).conj * data2 i k * ⟨((lm k).2 : ℚ) ^ 2, 0⟩

/-- Per-mode contribution of `_LdtVector` to the three Cartesian components
(source lines 37-39), with `data1` the mode values and `data2` their time
derivatives. -/
def ldtEntry (i : ℕ) (k : ℤ) : Fin 3 → ℚ :=
  let Lp := termLp lad data1 data2 lm i k
  let Lm := termLm lad data1 data2 lm i k
  let Lz := termLz data1 data2 lm i k
  ![(1 / 2) * (Lp.im + Lm.im), -(1 / 2) * (Lp.re - Lm.re), Lz.im]

/-- Per-mode contribution of `_LVector` (source lines 79-81). -/
def lvecEntry (i : ℕ) (k : ℤ) : Fin 3 → Cx :=
  let Lp := termLp lad data1 data2 lm i k
  let Lm := termLm lad data1 data2 lm i k
  let Lz := termLz data1 data2 lm i k
  ![(⟨1 / 2, 0⟩ : Cx) * (Lp + Lm), (⟨0, -(1 / 2)⟩ : Cx) * (Lp - Lm), Lz]

/-- Per-mode contribution of `_LLComparisonMatrix` (source lines 150-158):
the `(1,1)` entry is incremented twice (the second increment being the
`LyLz` combination) and the `(1,2)` entry is never written. -/
def llCompEntry (i : ℕ) (k : ℤ) : Fin 3 → Fin 3 → Cx :=
  let LpLp := termLpLp lad data1 data2 lm i k
  let LpLm := termLpLm lad data1 data2 lm i k
  let LmLp := termLmLp lad data1 data2 lm i k
  let LmLm := termLmLm lad data1 data2 lm i k
  let LpLz := termLpLz lad data1 data2 lm i k
  let LzLp := termLzLp lad data1 data2 lm i k
  let LmLz := termLmLz lad data1 data2 lm i k
  let LzLm := termLzLm lad data1 data2 lm i k
  let LzLz := termLzLz data1 data2 lm i k
  ![![(⟨1 / 4, 0⟩ : Cx) * (LpLp + LmLm + LmLp + LpLm),
     (⟨0, -(1 / 4)⟩ : Cx) * (LpLp - LmLm + LmLp - LpLm),
     (⟨1 / 2, 0⟩ : Cx) * (LpLz + LmLz)],
    ![(⟨0, -(1 / 4)⟩ : Cx) * (LpLp - LmLp + LpLm - LmLm),
     (⟨-(1 / 4), 0⟩ : Cx) * (LpLp - LmLp - LpLm + LmLm) + (⟨0, -(1 / 2)⟩ : Cx) * (LpLz - LmLz),
     0],
    ![(⟨1 / 2, 0⟩ : Cx) * (LzLp + LzLm),
     (⟨0, -(1 / 2)⟩ : Cx) * (LzLp - LzLm),
     LzLz]]

end Terms

section LLSingle

variable (lad : ℤ → ℤ → ℚ) (data : ℕ → ℤ → Cx) (lm : ℤ → ℤ × ℤ)

/-- Per-mode contribution of `_LLMatrix` (source lines 205-257): the same
second-moment products with `data1 = data2 = data`, converted to the
Cartesian basis and explicitly symmetrized (each off-diagonal entry is the
average of the two transpose-pair bilinear combinations). -/
def llEntry (i : ℕ) (k : ℤ) : Fin 3 → Fin 3 → ℚ :=
  let LpLp := termLpLp lad data data lm i k
  let LpLm := termLpLm lad data data lm i k
  let LmLp := termLmLp lad data data lm i k
  let LmLm := termLmLm lad data data lm i k
  let LpLz := termLpLz lad data data lm i k
  let LzLp := termLzLp lad data data lm i k
  let LmLz := termLmLz lad data data lm i k
  let LzLm := termLzLm lad data data lm i k
  let LzLz := termLzLz data data lm i k
  let LxLx := (⟨1 / 4, 0⟩ : Cx) * (LpLp + LmLm + LmLp + LpLm)
  let LxLy := (⟨0, -(1 / 4)⟩ : Cx) * (LpLp - LmLm + LmLp - LpLm)
  let LxLz := (⟨1 / 2, 0⟩ : Cx) * (LpLz + LmLz)
  let LyLx := (⟨0, -(1 / 4)⟩ : Cx) * (LpLp - LmLp + LpLm - LmLm)
  let LyLy := (⟨-(1 / 4), 0⟩ : Cx) * (LpLp - LmLp - LpLm + LmLm)
  let LyLz := (⟨0, -(1 / 2)⟩ : Cx) * (LpLz - LmLz)
  let LzLx := (⟨1 / 2, 0⟩ : Cx) * (LzLp + LzLm)
  let LzLy := (⟨0, -(1 / 2)⟩ : Cx) * (LzLp - LzLm)
  ![![LxLx.re, (LxLy + LyLx).re / 2, (LxLz + LzLx).re / 2],
    ![(LyLx + LxLy).re / 2, LyLy.re, (LyLz + LzLy).re / 2],
    ![(LzLx + LxLz).re / 2, (LzLy + LyLz).re / 2, LzLz.re]]

end LLSingle

/-- `LdtVector(W)` (source lines 43-54): the real `(n_times, 3)` field
accumulated over all modes from `W.data` and `W.data_dot`. -/
def LdtVector (lad : ℤ → ℤ → ℚ) (W : SpinSeries) (i : ℕ) (a : Fin 3) : ℚ :=
  ∑ k in Finset.range W.n_modes, ldtEntry lad W.data W.data_dot W.lm i (k : ℤ) a

/-- `LVector(W1, W2)` (source lines 85-96): the complex `(n_times, 3)` field
accumulated over all modes from `W1.data` and `W2.data`. -/
def LVector (lad : ℤ → ℤ → ℚ) (data1 data2 : ℕ → ℤ → Cx) (lm : ℤ → ℤ × ℤ)
    (nmodes : ℕ) (i : ℕ) (a : Fin 3) : Cx :=
  ∑ k in Finset.range nmodes, lvecEntry lad data1 data2 lm i (k : ℤ) a

/-- `LLComparisonMatrix(W1, W2)` (source lines 173-184): the complex
`(n_times, 3, 3)` field accumulated over all modes. -/
def LLComparisonMatrix (lad : ℤ → ℤ → ℚ) (W1 W2 : SpinSeries) (i : ℕ) (a b : Fin 3) : Cx :=
  ∑ k in Finset.range W1.n_modes, llCompEntry lad W1.data W2.data W1.lm i (k : ℤ) a b

/-- `LLMatrix(W)` (source lines 261-276): the real symmetrized
`(n_times, 3, 3)` field accumulated over all modes. -/
def LLMatrix (lad : ℤ → ℤ → ℚ) (W : SpinSeries) (i : ℕ) (a b : Fin 3) : ℚ :=
  ∑ k in Finset.range W.n_modes, llEntry lad W.data W.lm i (k : ℤ) a b

/-- Determinant of a 3×3 rational matrix (cofactor expansion). -/
def det3 (A : Fin 3 → Fin 3 → ℚ) : ℚ :=
  A 0 0 * (A 1 1 * A 2 2 - A 1 2 * A 2 1)
    - A 0 1 * (A 1 0 * A 2 2 - A 1 2 * A 2 0)
    + A 0 2 * (A 1 0 * A 2 1 - A 1 1 * A 2 0)

/-- `A` with column `c` replaced by `b`. -/
def replCol (A : Fin 3 → Fin 3 → ℚ) (b : Fin 3 → ℚ) (c : Fin 3) : Fin 3 → Fin 3 → ℚ :=
  fun r cc => if cc = c then b r else A r cc

/-- Models the external batched linear solver `np.linalg.solve` through its
documented contract (spec §6): returns the solution of `A·x = b` (here via
Cramer's rule) and fails on singular input. -/
def solve3 (A : Fin 3 → Fin 3 → ℚ) (b : Fin 3 → ℚ) : Option (Fin 3 → ℚ) :=
  if det3 A = 0 then none else some (fun c => det3 (replCol A b c) / det3 A)

/-- `angular_velocity(W)` (source lines 368-390): `omega = -solve(ll, l)`
with `l = W.LdtVector()` and `ll = W.LLMatrix()`, per time sample. -/
def angular_velocity (lad : ℤ → ℤ → ℚ) (W : SpinSeries) (i : ℕ) : Option (Fin 3 → ℚ) :=
  (solve3 (fun a b => LLMatrix lad W i a b) (fun a => LdtVector lad W i a)).map
    (fun x a => -(x a))

/-- Cartesian 3-vectors with rational components. -/
abbrev Vec3 := Fin 3 → ℚ

/-- Squared Euclidean norm, as computed componentwise by the source
(lines 289, 291-293, 309, 311-313). -/
def nsq (v : Vec3) : ℚ := v 0 ^ 2 + v 1 ^ 2 + v 2 ^ 2

/-- Componentwise dot product (source line 283). -/
def dotv (u v : Vec3) : ℚ := u 0 * v 0 + u 1 * v 1 + u 2 * v 2

/-- Sign flip of all three components (`dpa[i, :] *= -1`). -/
def flip3 (v : Vec3) : Vec3 := fun a => -(v a)

/-- Functional update of one row of the `dpa` array. -/
def upd (f : ℕ → Vec3) (i : ℕ) (v : Vec3) : ℕ → Vec3 :=
  fun j => if j = i then v else f j

/-- Componentwise division of a row by a scalar, the normalization primitive
of the continuity walk (`dpa[j, :] /= LastNorm`). -/
def scDiv : ℚ → Vec3 → Vec3 := fun c v a => v a / c

/-- One iteration of the backward continuity loop of
`_LLDominantEigenvector` (source lines 290-303), processing row `i` with
neighbor `i + 1`: flip the row if the squared difference to the neighbor
exceeds the row's own squared norm, then normalize the neighbor by the
carried `LastNorm` if that norm differs from `0` and from `1`.  The
normalization primitive `sc` is a parameter (instantiated with `scDiv` in
the source semantics); `rt` models the external `math.sqrt`. -/
def backStep (rt : ℚ → ℚ) (sc : ℚ → Vec3 → Vec3) (st : (ℕ → Vec3) × ℚ) (i : ℕ) :
    (ℕ → Vec3) × ℚ :=
  let Norm := nsq (st.1 i)
  let dNorm := nsq (fun a => st.1 i a - st.1 (i + 1) a)
  let dpa1 := if Norm < dNorm then upd st.1 i (flip3 (st.1 i)) else st.1
  let dpa2 := if st.2 ≠ 0 ∧ st.2 ≠ 1 then upd dpa1 (i + 1) (sc st.2 (dpa1 (i + 1))) else dpa1
  (dpa2, rt Norm)

/-- The backward loop `for i in xrange(i_index-1, -1, -1)` (source line
290): `backWalk rt sc k st` processes rows `k-1, k-2, ..., 0`. -/
def backWalk (rt : ℚ → ℚ) (sc : ℚ → Vec3 → Vec3) : ℕ → (ℕ → Vec3) × ℚ → (ℕ → Vec3) × ℚ
  | 0, st => st
  | j + 1, st => backWalk rt sc j (backStep rt sc st j)

/-- One iteration of the forward continuity loop (source lines 310-323),
processing row `i` with neighbor `i - 1`. -/
def fwdStep (rt : ℚ → ℚ) (sc : ℚ → Vec3 → Vec3) (st : (ℕ → Vec3) × ℚ) (i : ℕ) :
    (ℕ → Vec3) × ℚ :=
  let Norm := nsq (st.1 i)
  let dNorm := nsq (fun a => st.1 i a - st.1 (i - 1) a)
  let dpa1 := if Norm < dNorm then upd st.1 i (flip3 (st.1 i)) else st.1
  let dpa2 := if st.2 ≠ 0 ∧ st.2 ≠ 1 then upd dpa1 (i - 1) (sc st.2 (dpa1 (i - 1))) else dpa1
  (dpa2, rt Norm)

/-- The forward loop `for i in xrange(i_index+1, dpa.shape[0])` (source line
310): `fwdWalk rt sc c i st` processes rows `i, i+1, ..., i+c-1`. -/
def fwdWalk (rt : ℚ → ℚ) (sc : ℚ → Vec3 → Vec3) : ℕ → ℕ → (ℕ → Vec3) × ℚ → (ℕ → Vec3) × ℚ
  | 0, _, st => st
  | c + 1, i, st => fwdWalk rt sc c (i + 1) (fwdStep rt sc st i)

/-- The guarded endpoint normalization performed after each directional loop
(source lines 304-307 and 324-327). -/
def finalNorm (sc : ℚ → Vec3 → Vec3) (st : (ℕ → Vec3) × ℚ) (j : ℕ) : ℕ → Vec3 :=
  if st.2 ≠ 0 ∧ st.2 ≠ 1 then upd st.1 j (sc st.2 (st.1 j)) else st.1

/-- `_LLDominantEigenvector(dpa, dpa_i, i_index)` (source lines 279-328),
parametric in the normalization primitive `sc` and the square-root model
`rt`: orient the row at `i0` against the rough direction, walk backward to
row `0` and forward to row `n-1` making the rows continuous, normalizing
with one-step deferral, and normalize the remaining endpoint after each
directional walk. -/
def eigWalk (rt : ℚ → ℚ) (sc : ℚ → Vec3 → Vec3) (n : ℕ) (dpa : ℕ → Vec3) (dpa_i : Vec3)
    (i0 : ℕ) : ℕ → Vec3 :=
  let dpa1 := if dotv dpa_i (dpa i0) < 0 then upd dpa i0 (flip3 (dpa i0)) else dpa
  let st1 := backWalk rt sc i0 (dpa1, rt (nsq (dpa1 i0)))
  let dpa2 := finalNorm sc st1 0
  let st2 := fwdWalk rt sc (n - (i0 + 1)) (i0 + 1) (dpa2, rt (nsq (dpa2 i0)))
  finalNorm sc st2 (n - 1)

/-- `LLDominantEigenvector(W, RoughDirection, RoughDirectionIndex)` (source
lines 331-364).  The eigensolver `np.linalg.eigh` is external; `eigvecs i`
models its output `eigenvecs[i, :, 2]`, the eigenvector of the largest
eigenvalue at time sample `i` (its documented contract returns orthonormal
eigenvectors).  The continuity correction is the walk above with actual
componentwise division as the normalization primitive. -/
def LLDominantEigenvector (rt : ℚ → ℚ) (eigvecs : ℕ → Vec3) (Rough : Vec3) (i0 n : ℕ) :
    ℕ → Vec3 :=
  eigWalk rt scDiv n eigvecs Rough i0

/-- Sign application: `condFlip b v` is `v` flipped when `b` is `true`. -/
def condFlip (b : Bool) (v : Vec3) : Vec3 := if b then flip3 v else v

/-- Guarded normalization as described by the spec: divide (apply `sc`) only
when the stored norm differs from `0` and from `1`. -/
def gdiv (sc : ℚ → Vec3 → Vec3) (c : ℚ) (v : Vec3) : Vec3 :=
  if c ≠ 0 ∧ c ≠ 1 then sc c v else v

/-- Step 1 of the spec's continuity correction: orient the candidate at the
reference index so its dot product with the rough direction is
non-negative. -/
def orientSeed (dpa : ℕ → Vec3) (rough : Vec3) (i0 : ℕ) : ℕ → Vec3 :=
  if dotv rough (dpa i0) < 0 then upd dpa i0 (flip3 (dpa i0)) else dpa

/-- Backward flip decisions of the spec's continuity correction, indexed by
distance below the reference index: `bflipAux orig i0 k` tells whether the
sample at index `i0 - k` is sign-flipped, comparing the unnormalized
candidate with its already sign-corrected (still unnormalized) neighbor. -/
def bflipAux (orig : ℕ → Vec3) (i0 : ℕ) : ℕ → Bool
  | 0 => false
  | k + 1 =>
    decide (nsq (orig (i0 - (k + 1))) <
      nsq (fun a => orig (i0 - (k + 1)) a - condFlip (bflipAux orig i0 k) (orig (i0 - k)) a))

/-- Whether the sample at index `j ≤ i0` is sign-flipped by the backward
walk. -/
def bflip (orig : ℕ → Vec3) (i0 j : ℕ) : Bool := bflipAux orig i0 (i0 - j)

/-- The array after the backward walk and its endpoint normalization: every
sample at index `m ≤ i0` is sign-corrected and normalized by (the square
root of) its own unnormalized squared norm, under the `0`/`1` guard. -/
def backSpec (rt : ℚ → ℚ) (sc : ℚ → Vec3 → Vec3) (orig : ℕ → Vec3) (i0 : ℕ) : ℕ → Vec3 :=
  fun m =>
    if m ≤ i0 then gdiv sc (rt (nsq (orig m))) (condFlip (bflip orig i0 m) (orig m)) else orig m

/-- Forward flip decisions, indexed by distance above the reference index:
the first comparison is against the (already normalized) value `base` at the
reference index left behind by the backward pass; later comparisons are
against the sign-corrected, still unnormalized neighbor. -/
def fflipAux (orig : ℕ → Vec3) (base : Vec3) (i0 : ℕ) : ℕ → Bool
  | 0 => decide (nsq (orig (i0 + 1)) < nsq (fun a => orig (i0 + 1) a - base a))
  | k + 1 =>
    decide (nsq (orig (i0 + k + 2)) <
      nsq (fun a => orig (i0 + k + 2) a - condFlip (fflipAux orig base i0 k) (orig (i0 + k + 1)) a))

/-- Whether the sample at index `i > i0` is sign-flipped by the forward
walk. -/
def fflip (orig : ℕ → Vec3) (base : Vec3) (i0 i : ℕ) : Bool := fflipAux orig base i0 (i - i0 - 1)

/-- Closed-form description of the continuity-corrected field, written from
the spec's description of the algorithm (§4.2 steps 1-4): orientation at the
reference index, outward sign-flip decisions on unnormalized values with
the already-corrected neighbor, one-step-deferred normalization by each
sample's own stored norm, and endpoint normalization after each walk.  The
reference-index sample is additionally passed through the forward walk's
deferred normalization of its already-normalized value. -/
def walkSpec (rt : ℚ → ℚ) (sc : ℚ → Vec3 → Vec3) (dpa : ℕ → Vec3) (rough : Vec3) (i0 : ℕ) :
    ℕ → Vec3 :=
  let orig := orientSeed dpa rough i0
  let B := backSpec rt sc orig i0
  fun m =>
    if m < i0 then B m
    else if m = i0 then gdiv sc (rt (nsq (B i0))) (B i0)
    else gdiv sc (rt (nsq (orig m))) (condFlip (fflip orig (B i0) i0 m) (orig m))

/-- Python/numba index semantics for a row read from an array of `n` rows:
indices in `[-n, n)` are valid, negative ones wrapping around to `n + i`;
any other index is out of bounds and yields no defined result (the compiled
helper performs no bounds check, so an out-of-bounds access is undefined
behavior; the model flags it as a failure). -/
def wrapIdx (n : ℕ) (i : ℤ) : ℤ := if i < 0 then i + n else i

/-- Checked row read. -/
def rdz (n : ℕ) (dpa : ℤ → Vec3) (i : ℤ) : Option Vec3 :=
  if -(n : ℤ) ≤ i ∧ i < (n : ℤ) then some (dpa (wrapIdx n i)) else none

/-- Checked row write. -/
def wrz (n : ℕ) (dpa : ℤ → Vec3) (i : ℤ) (v : Vec3) : Option (ℤ → Vec3) :=
  if -(n : ℤ) ≤ i ∧ i < (n : ℤ) then
    some (fun j => if j = wrapIdx n i then v else dpa j)
  else none

/-- Bounds-checked version of `backStep` (source lines 290-303), with
integer row indices and Python wraparound. -/
def cBackStep (rt : ℚ → ℚ) (n : ℕ) (st : (ℤ → Vec3) × ℚ) (i : ℕ) :
    Option ((ℤ → Vec3) × ℚ) :=
  (rdz n st.1 (i : ℤ)).bind fun v =>
  (rdz n st.1 ((i : ℤ) + 1)).bind fun w =>
  let Norm := nsq v
  let dNorm := nsq (fun a => v a - w a)
  (if Norm < dNorm then wrz n st.1 (i : ℤ) (flip3 v) else some st.1).bind fun dpa1 =>
  (if st.2 ≠ 0 ∧ st.2 ≠ 1 then
      (rdz n dpa1 ((i : ℤ) + 1)).bind fun w1 => wrz n dpa1 ((i : ℤ) + 1) (scDiv st.2 w1)
    else some dpa1).map fun dpa2 =>
  (dpa2, rt Norm)

/-- Bounds-checked backward loop; for a negative reference index the source
loop `xrange(i_index-1, -1, -1)` is empty, matched here by `Int.toNat`. -/
def cBackLoop (rt : ℚ → ℚ) (n : ℕ) : ℕ → (ℤ → Vec3) × ℚ → Option ((ℤ → Vec3) × ℚ)
  | 0, st => some st
  | j + 1, st => (cBackStep rt n st j).bind (cBackLoop rt n j)

/-- Bounds-checked version of `fwdStep` (source lines 310-323); the row
index is an integer because for a negative reference index the source loop
`xrange(i_index+1, n)` starts at negative indices. -/
def cFwdStep (rt : ℚ → ℚ) (n : ℕ) (st : (ℤ → Vec3) × ℚ) (i : ℤ) :
    Option ((ℤ → Vec3) × ℚ) :=
  (rdz n st.1 i).bind fun v =>
  (rdz n st.1 (i - 1)).bind fun w =>
  let Norm := nsq v
  let dNorm := nsq (fun a => v a - w a)
  (if Norm < dNorm then wrz n st.1 i (flip3 v) else some st.1).bind fun dpa1 =>
  (if st.2 ≠ 0 ∧ st.2 ≠ 1 then
      (rdz n dpa1 (i - 1)).bind fun w1 => wrz n dpa1 (i - 1) (scDiv st.2 w1)
    else some dpa1).map fun dpa2 =>
  (dpa2, rt Norm)

/-- Bounds-checked forward loop, processing `c` rows starting at row `i`. -/
def cFwdLoop (rt : ℚ → ℚ) (n : ℕ) : ℕ → ℤ → (ℤ → Vec3) × ℚ → Option ((ℤ → Vec3) × ℚ)
  | 0, _, st => some st
  | c + 1, i, st => (cFwdStep rt n st i).bind (cFwdLoop rt n c (i + 1))

/-- Bounds-checked endpoint normalization (source lines 304-307, 324-327);
the rows are only accessed when the guard passes. -/
def cFinalNorm (n : ℕ) (st : (ℤ → Vec3) × ℚ) (j : ℤ) : Option (ℤ → Vec3) :=
  if st.2 ≠ 0 ∧ st.2 ≠ 1 then
    (rdz n st.1 j).bind fun v => wrz n st.1 j (scDiv st.2 v)
  else some st.1

/-- Bounds-checked `_LLDominantEigenvector(dpa, dpa_i, i_index)` with
`i_index : ℤ`, modelling the array accesses of the source under
Python/numba index semantics: the first access already reads
`dpa[i_index]` (line 283), so an index outside `[-n, n)` fails
immediately; a negative index in `[-n, 0)` wraps around and the walk
proceeds. -/
def cEigWalk (rt : ℚ → ℚ) (n : ℕ) (dpa : ℤ → Vec3) (dpa_i : Vec3) (i0 : ℤ) :
    Option (ℤ → Vec3) :=
  (rdz n dpa i0).bind fun v0 =>
  (if dotv dpa_i v0 < 0 then wrz n dpa i0 (flip3 v0) else some dpa).bind fun dpa1 =>
  (rdz n dpa1 i0).bind fun v1 =>
  (cBackLoop rt n i0.toNat (dpa1, rt (nsq v1))).bind fun st1 =>
  (cFinalNorm n st1 0).bind fun dpa2 =>
  (rdz n dpa2 i0).bind fun v2 =>
  (cFwdLoop rt n ((n : ℤ) - (i0 + 1)).toNat (i0 + 1) (dpa2, rt (nsq v2))).bind fun st2 =>
  cFinalNorm n st2 (-1)

/-- First index in `[0, n)` minimizing `|g i|`, accumulated left to right
with strict improvement, modelling `np.argmin(np.abs(...))`. -/
def argminAbsAux (g : ℕ → ℚ) : ℕ → ℕ × ℚ
  | 0 => (0, |g 0|)
  | i + 1 =>
    let p := argminAbsAux g i
    if |g (i + 1)| < p.2 then (i + 1, |g (i + 1)|) else p

/-- `np.argmin(np.abs(g))` over indices `0, ..., n-1`. -/
def argminAbs (g : ℕ → ℚ) (n : ℕ) : ℕ := (argminAbsAux g (n - 1)).1

/-- The alignment branch of `corotating_frame` (source lines 423-439),
modelled up to the averaged corotating-frame axis: resolve the fractional
window `(f1, f2)` of the inspiral (first time up to `max_norm_time`) to the
nearest sample indices `i1`, `i2`; run the dominant-eigenvector continuity
walk on the slice `W[i1:i2]` (its `i2 - i1` eigenvectors from the external
eigensolver are the parameter `eigSlice`, its rough direction the parameter
`rough`) with reference index `0`; rotate each eigenvector into the
integrated frame (external rotor conjugation, parameter `rot`); and average
over the window (`np.mean(..., axis=0)`).  The subsequent quaternionic
square-root/inverse steps are external operations on that mean.  No
degenerate-window check appears in the source; a zero-sample window fails
only because the walk's first row read `dpa[0]` is out of bounds on an
empty slice. -/
def corotAlignment (rt : ℚ → ℚ) (n : ℕ) (t : ℕ → ℚ) (mnt f1 f2 : ℚ)
    (eigSlice : ℤ → Vec3) (rough : Vec3) (rot : ℕ → Vec3 → Vec3) : Option Vec3 :=
  let t0 := t 0
  let insp := mnt - t0
  let t1 := t0 + f1 * insp
  let t2 := t0 + f2 * insp
  let i1 := argminAbs (fun i => |t i - t1|) n
  let i2 := argminAbs (fun i => |t i - t2|) n
  let m := i2 - i1
  (cEigWalk rt m eigSlice rough 0).map fun Vhat =>
    fun a => (∑ j in Finset.range m, rot j (Vhat (j : ℤ)) a) / (m : ℚ)

/-- Rational stand-in for the external ladder coefficients on the `ell = 2`
block, chosen so that every ladder product occurring with nonzero data in
the concrete series `cexW` below equals the exact real product: the true
values are `ladder(2, 1) = ladder(2, -2) = 2` and
`ladder(2, 0) * ladder(2, -1) = sqrt 6 * sqrt 6 = 6`. -/
def cexLad : ℤ → ℤ → ℚ := fun _ m => if m = 0 then 6 else if m = -1 then 1 else 2

/-- Concrete mode series: one time sample, the `ell = 2` block
(`m = -2, ..., 2` at columns `0, ..., 4`), with `data(2,1) = 1`,
`data(2,2) = i` and all other modes zero. -/
def cexW : SpinSeries where
  n_times := 1
  n_modes := 5
  lm := fun k => (2, k - 2)
  data := fun _ k => if k = 3 then ⟨1, 0⟩ else if k = 4 then ⟨0, 1⟩ else 0
  data_dot := fun _ _ => 0

/-- A concrete all-ones ladder stand-in for witnesses whose statements are
parametric in the ladder function. -/
def lad1 : ℤ → ℤ → ℚ := fun _ _ => 1

/-- Concrete mode series on the `ell = 1` block whose `<LL>` matrix (with
ladder `lad1`) is invertible at time `0`. -/
def W3 : SpinSeries where
  n_times := 1
  n_modes := 3
  lm := fun k => (1, k - 1)
  data := fun _ k => if k = 0 then ⟨1, 0⟩ else if k = 1 then ⟨0, 1⟩ else ⟨2, 1⟩
  data_dot := fun _ k => if k = 0 then ⟨0, 1⟩ else if k = 1 then ⟨1, 0⟩ else ⟨1, -1⟩

/-- Concrete unnormalized candidate field for walk witnesses. -/
def wDpa : ℕ → Vec3 := fun i => if i = 0 then ![0, 1, 0] else ![1, 0, 0]

/-- Concrete unit-norm candidate field (modelling eigensolver output). -/
def uDpa : ℕ → Vec3 := fun _ => ![1, 0, 0]

/-- A normalization primitive that agrees with `scDiv` away from a zero
divisor but returns the vector unchanged at divisor `0`. -/
def scAlt : ℚ → Vec3 → Vec3 := fun c v => if c = 0 then v else scDiv c v

/-- Concrete strictly increasing time array for the alignment model. -/
def c7t : ℕ → ℚ := fun i => (i : ℚ)

/-- Concrete sliced eigenvector field for the alignment model. -/
def c7eig : ℤ → Vec3 := fun _ => ![1, 0, 0]

/-- Concrete frame conjugation (identity rotors) for the alignment model. -/
def c7rot : ℕ → Vec3 → Vec3 := fun _ v => v

/-- Concrete unit row field on integer indices for the checked walk. -/
def c8dpa : ℤ → Vec3 := fun _ => ![1, 0, 0]

/-- Concrete rough direction. -/
def exDir : Vec3 := ![1, 0, 0]

/-- Intermediate array state of the backward walk, about to process row
`k - 1`: rows above `k` (up to `i0`) are sign-corrected and normalized,
row `k` is sign-corrected with its normalization still deferred, rows
below `k` and above `i0` are untouched. -/
def Aarr (rt : ℚ → ℚ) (sc : ℚ → Vec3 → Vec3) (orig : ℕ → Vec3) (i0 k : ℕ) : ℕ → Vec3 :=
  fun m =>
    if m < k then orig m
    else if m = k then condFlip (bflip orig i0 m) (orig m)
    else if m ≤ i0 then gdiv sc (rt (nsq (orig m))) (condFlip (bflip orig i0 m) (orig m))
    else orig m

/-- Intermediate array state of the forward walk, about to process row `i`:
rows at and above `i` untouched, row `i - 1` sign-corrected with deferred
normalization, rows between `i0` and `i - 1` finished, row `i0` carrying
the forward pass's re-normalization of its backward-pass value, rows below
`i0` as the backward pass left them. -/
def FAarr (rt : ℚ → ℚ) (sc : ℚ → Vec3 → Vec3) (orig : ℕ → Vec3) (i0 i : ℕ) : ℕ → Vec3 :=
  fun m =>
    if i ≤ m then orig m
    else if m = i - 1 then
      (if m = i0 then backSpec rt sc orig i0 i0
       else condFlip (fflip orig (backSpec rt sc orig i0 i0) i0 m) (orig m))
    else if m = i0 then
      gdiv sc (rt (nsq (backSpec rt sc orig i0 i0))) (backSpec rt sc orig i0 i0)
    else if i0 < m then
      gdiv sc (rt (nsq (orig m))) (condFlip (fflip orig (backSpec rt sc orig i0 i0) i0 m) (orig m))
    else backSpec rt sc orig i0 m

/-- Carried `LastNorm` of the forward walk before processing row `i`. -/
def LNf (rt : ℚ → ℚ) (sc : ℚ → Vec3 → Vec3) (orig : ℕ → Vec3) (i0 i : ℕ) : ℚ :=
  if i = i0 + 1 then rt (nsq (backSpec rt sc orig i0 i0)) else rt (nsq (orig (i - 1)))

theorem Cx.zero_def : (0 : Cx) = ⟨0, 0⟩ := rfl

@[simp] theorem Cx.add_re (x y : Cx) : (x + y).re = x.re + y.re := by cases x; cases y; rfl

@[simp] theorem Cx.add_im (x y : Cx) : (x + y).im = x.im + y.im := by cases x; cases y; rfl

@[simp] theorem Cx.sub_re (x y : Cx) : (x - y).re = x.re - y.re := by cases x; cases y; rfl

@[simp] theorem Cx.sub_im (x y : Cx) : (x - y).im = x.im - y.im := by cases x; cases y; rfl

@[simp] theorem Cx.mul_re (x y : Cx) : (x * y).re = x.re * y.re - x.im * y.im := by
  cases x; cases y; rfl

@[simp] theorem Cx.mul_im (x y : Cx) : (x * y).im = x.re * y.im + x.im * y.re := by
  cases x; cases y; rfl

@[simp] theorem Cx.zero_re : (0 : Cx).re = 0 := rfl

@[simp] theorem Cx.zero_im : (0 : Cx).im = 0 := rfl

/-- Claim C3: in every moment accumulator, a ladder-operator term is zero
exactly when its intermediate or final `m` value leaves `[-ell, ell]` (the
`L+` term when `m + 1 > ell`, the `L-` term when `m - 1 < -ell`, and each
second-moment product when its one- or two-step shifted `m` exits the
range, e.g. `L+L+` requires `m + 2 <= ell`); otherwise the term is the
coefficient at the shifted mode index times the mode coefficient, scaled by
the ladder coefficients. -/
theorem ladder_term_guards (lad : ℤ → ℤ → ℚ) (data1 data2 : ℕ → ℤ → Cx)
    (lm : ℤ → ℤ × ℤ) (i : ℕ) (k : ℤ) :
    (termLp lad data1 data2 lm i k =
      if (lm k).1 < (lm k).2 + 1 then 0
      else (data1 i (k + 1)).conj * data2 i k * ⟨lad (lm k).1 (lm k).2, 0⟩) ∧
    (termLm lad data1 data2 lm i k =
      if (lm k).2 - 1 < -(lm k).1 then 0
      else (data1 i (k - 1)).conj * data2 i k * ⟨lad (lm k).1 (-(lm k).2), 0⟩) ∧
    (termLpLp lad data1 data2 lm i k =
      if (lm k).1 < (lm k).2 + 2 then 0
      else (data1 i (k + 2)).conj * data2 i k *
        ⟨lad (lm k).1 ((lm k).2 + 1) * lad (lm k).1 (lm k).2, 0⟩) ∧
    (termLpLm lad data1 data2 lm i k =
      if (lm k).2 - 1 < -(lm k).1 then 0
      else (data1 i k).conj * data2 i k *
        ⟨lad (lm k).1 ((lm k).2 - 1) * lad (lm k).1 (-(lm k).2), 0⟩) ∧
    (termLmLp lad data1 data2 lm i k =
      if (lm k).1 < (lm k).2 + 1 then 0
      else (data1 i k).conj * data2 i k *
        ⟨lad (lm k).1 (-((lm k).2 + 1)) * lad (lm k).1 (lm k).2, 0⟩) ∧
    (termLmLm lad data1 data2 lm i k =
      if (lm k).2 - 2 < -(lm k).1 then 0
      else (data1 i (k - 2)).conj * data2 i k *
        ⟨lad (lm k).1 (-((lm k).2 - 1)) * lad (lm k).1 (-(lm k).2), 0⟩) ∧
    (termLpLz lad data1 data2 lm i k =
      if (lm k).1 < (lm k).2 + 1 then 0
      else (data1 i (k + 1)).conj * data2 i k * ⟨lad (lm k).1 (lm k).2 * ((lm k).2 : ℚ), 0⟩) ∧
    (termLzLp lad data1 data2 lm i k =
      if (lm k).1 < (lm k).2 + 1 then 0
      else (data1 i (k + 1)).conj * data2 i k *
        ⟨(((lm k).2 : ℚ) + 1) * lad (lm k).1 (lm k).2, 0⟩) ∧
    (termLmLz lad data1 data2 lm i k =
      if (lm k).2 - 1 < -(lm k).1 then 0
      else (data1 i (k - 1)).conj * data2 i k *
        ⟨lad (lm k).1 (-(lm k).2) * ((lm k).2 : ℚ), 0⟩) ∧
    (termLzLm lad data1 data2 lm i k =
      if (lm k).2 - 1 < -(lm k).1 then 0
      else (data1 i (k - 1)).conj * data2 i k *
        ⟨(((lm k).2 : ℚ) - 1) * lad (lm k).1 (-(lm k).2), 0⟩) ∧
    (termLzLz data1 data2 lm i k =
      (data1 i k).conj * data2 i k * ⟨((lm k).2 : ℚ) ^ 2, 0⟩) := by
  refine ⟨?_, ?_, ?_, ?_, ?_, ?_, ?_, ?_, ?_, ?_, rfl⟩ <;>
    simp only [termLp, termLm, termLpLp, termLpLm, termLmLp, termLmLm, termLpLz, termLzLp,
      termLmLz, termLzLm] <;>
    split_ifs <;> first | rfl | omega

/-- Claim C10: `LdtVector` is real-valued, each component being, at every
time sample, the imaginary part of the corresponding component of the
complex `<L>` contraction of the mode data against its time derivative. -/
theorem LdtVector_eq_im_LVector (lad : ℤ → ℤ → ℚ) (W : SpinSeries) (i : ℕ) (a : Fin 3) :
    LdtVector lad W i a = (LVector lad W.data W.data_dot W.lm W.n_modes i a).im := by
  unfold LdtVector LVector
  refine Eq.trans (Finset.sum_congr rfl fun k _ => ?_)
    (map_sum Cx.imHom (fun k : ℕ => lvecEntry lad W.data W.data_dot W.lm i (k : ℤ) a)
      (Finset.range W.n_modes)).symm
  show ldtEntry lad W.data W.data_dot W.lm i (k : ℤ) a =
    (lvecEntry lad W.data W.data_dot W.lm i (k : ℤ) a).im
  fin_cases a <;>
    simp [ldtEntry, lvecEntry, Matrix.cons_val_zero, Matrix.cons_val_one, Matrix.cons_val_two,
      Matrix.head_cons, Matrix.tail_cons]

@[simp] theorem Cx.add_mk (a b c d : ℚ) : (⟨a, b⟩ + ⟨c, d⟩ : Cx) = ⟨a + c, b + d⟩ := rfl

@[simp] theorem Cx.sub_mk (a b c d : ℚ) : (⟨a, b⟩ - ⟨c, d⟩ : Cx) = ⟨a - c, b - d⟩ := rfl

@[simp] theorem Cx.mul_mk (a b c d : ℚ) :
    (⟨a, b⟩ * ⟨c, d⟩ : Cx) = ⟨a * c - b * d, a * d + b * c⟩ := rfl

@[simp] theorem Cx.conj_mk (a b : ℚ) : Cx.conj ⟨a, b⟩ = ⟨a, -b⟩ := rfl

@[simp] theorem Cx.mul_zero (x : Cx) : x * 0 = 0 := by
  cases x; show Cx.mul _ ⟨0, 0⟩ = ⟨0, 0⟩; simp [Cx.mul]

@[simp] theorem Cx.zero_mul (x : Cx) : 0 * x = 0 := by
  cases x; show Cx.mul ⟨0, 0⟩ _ = ⟨0, 0⟩; simp [Cx.mul]

@[simp] theorem Cx.sub_zero (x : Cx) : x - 0 = x := by
  cases x; show Cx.sub _ ⟨0, 0⟩ = _; simp [Cx.sub]

@[simp] theorem Cx.zero_sub_mk (a b : ℚ) : (0 : Cx) - ⟨a, b⟩ = ⟨-a, -b⟩ := by
  show Cx.sub ⟨0, 0⟩ _ = _; simp [Cx.sub]

@[simp] theorem Cx.mk_zero : (⟨(0 : ℚ), (0 : ℚ)⟩ : Cx) = 0 := rfl

/-- Claim C2 (amended part): the tensor field returned by `LLMatrix` is
symmetric at every time sample, because each transpose pair of entries is
explicitly set to the average of the two bilinear combinations. -/
theorem LLMatrix_symm (lad : ℤ → ℤ → ℚ) (W : SpinSeries) (i : ℕ) (a b : Fin 3) :
    LLMatrix lad W i a b = LLMatrix lad W i b a := by
  unfold LLMatrix
  refine Finset.sum_congr rfl fun k _ => ?_
  fin_cases a <;> fin_cases b <;>
    simp [llEntry, Matrix.cons_val_zero, Matrix.cons_val_one, Matrix.cons_val_two,
      Matrix.head_cons, Matrix.tail_cons] <;>
    ring

/-- Claim C2 (counterexample part): `LLComparisonMatrix` is not symmetrized
(the symmetrization block of the source is commented out, and the `(1,2)`
entry is never written while `(2,1)` is): at the concrete series `cexW` its
entry `(1,2)` differs from its entry `(2,1)` at time `0`. -/
theorem LLComparisonMatrix_asym_cex :
    LLComparisonMatrix cexLad cexW cexW 0 1 2 ≠ LLComparisonMatrix cexLad cexW cexW 0 2 1 := by
  norm_num [LLComparisonMatrix, Finset.sum_range_succ, llCompEntry, termLpLp, termLpLm,
    termLmLp, termLmLm, termLpLz, termLzLp, termLmLz, termLzLm, termLzLz, cexW, cexLad,
    Cx.conj, Matrix.cons_val_zero, Matrix.cons_val_one, Matrix.cons_val_two,
    Matrix.head_cons, Matrix.tail_cons]
  intro h
  have h2 := congrArg Cx.re h
  norm_num [Cx.zero_re] at h2

/-- Claim C1: at the concrete series `cexW`, the complex comparison tensor
of the series against itself has entry `(1,2)` equal to `0` (that entry is
never written: line 155 of the source adds the `LyLz` combination into
entry `(1,1)` instead, as the commented-out symmetrization block shows was
intended), while the real tensor `LLMatrix` has entry `(1,2)` equal to
`-3`; the two fields are therefore not equal entry-by-entry. -/
theorem LLComparisonMatrix_entry12_bug :
    LLComparisonMatrix cexLad cexW cexW 0 1 2 = 0 ∧ LLMatrix cexLad cexW 0 1 2 = -3 := by
  constructor <;>
    norm_num [LLComparisonMatrix, LLMatrix, Finset.sum_range_succ, llCompEntry, llEntry,
      termLpLp, termLpLm, termLmLp, termLmLm, termLpLz, termLzLp, termLmLz, termLzLm,
      termLzLz, cexW, cexLad, Cx.conj, Matrix.cons_val_zero, Matrix.cons_val_one,
      Matrix.cons_val_two, Matrix.head_cons, Matrix.tail_cons]

theorem bflip_self (orig : ℕ → Vec3) (i0 : ℕ) : bflip orig i0 i0 = false := by
  simp [bflip, bflipAux]

theorem bflip_step (orig : ℕ → Vec3) (i0 j : ℕ) (h : j < i0) :
    bflip orig i0 j =
      decide (nsq (orig j) <
        nsq (fun a => orig j a - condFlip (bflip orig i0 (j + 1)) (orig (j + 1)) a)) := by
  unfold bflip
  rw [show i0 - j = (i0 - (j + 1)) + 1 by omega]
  rw [bflipAux]
  rw [show i0 - (i0 - (j + 1) + 1) = j by omega, show i0 - (i0 - (j + 1)) = j + 1 by omega]

theorem fflip_step_base (orig : ℕ → Vec3) (base : Vec3) (i0 : ℕ) :
    fflip orig base i0 (i0 + 1) =
      decide (nsq (orig (i0 + 1)) < nsq (fun a => orig (i0 + 1) a - base a)) := by
  unfold fflip
  rw [show i0 + 1 - i0 - 1 = 0 by omega]
  rw [fflipAux]

theorem fflip_step (orig : ℕ → Vec3) (base : Vec3) (i0 i : ℕ) (h : i0 + 2 ≤ i) :
    fflip orig base i0 i =
      decide (nsq (orig i) <
        nsq (fun a => orig i a - condFlip (fflip orig base i0 (i - 1)) (orig (i - 1)) a)) := by
  unfold fflip
  rw [show i - i0 - 1 = (i - i0 - 2) + 1 by omega]
  rw [fflipAux]
  rw [show i0 + (i - i0 - 2) + 2 = i by omega, show i0 + (i - i0 - 2) + 1 = i - 1 by omega,
    show i - 1 - i0 - 1 = i - i0 - 2 by omega]

theorem upd_self (f : ℕ → Vec3) (i : ℕ) (v : Vec3) : upd f i v i = v := by
  simp [upd]

theorem upd_other (f : ℕ → Vec3) (i : ℕ) (v : Vec3) (m : ℕ) (h : m ≠ i) :
    upd f i v m = f m := by
  simp [upd, h]

theorem backStep_char (rt : ℚ → ℚ) (sc : ℚ → Vec3 → Vec3) (orig : ℕ → Vec3) (i0 j : ℕ)
    (h : j < i0) :
    backStep rt sc (Aarr rt sc orig i0 (j + 1), rt (nsq (orig (j + 1)))) j =
      (Aarr rt sc orig i0 j, rt (nsq (orig j))) := by
  have hAj : Aarr rt sc orig i0 (j + 1) j = orig j := by
    simp [Aarr, Nat.lt_succ_self]
  have hAj1 : Aarr rt sc orig i0 (j + 1) (j + 1) =
      condFlip (bflip orig i0 (j + 1)) (orig (j + 1)) := by
    simp [Aarr]
  have hflip := bflip_step orig i0 j h
  simp only [backStep, hAj, hAj1]
  have hdpa1 : (if nsq (orig j) <
        nsq (fun a => orig j a - condFlip (bflip orig i0 (j + 1)) (orig (j + 1)) a)
      then upd (Aarr rt sc orig i0 (j + 1)) j (flip3 (orig j))
      else Aarr rt sc orig i0 (j + 1)) =
      fun m => if m = j then condFlip (bflip orig i0 j) (orig j)
        else Aarr rt sc orig i0 (j + 1) m := by
    by_cases hc : nsq (orig j) <
        nsq (fun a => orig j a - condFlip (bflip orig i0 (j + 1)) (orig (j + 1)) a)
    · rw [if_pos hc]
      funext m
      by_cases hm : m = j
      · subst hm
        have hb : bflip orig i0 m = true := hflip.trans (decide_eq_true hc)
        simp [upd, hb, condFlip]
      · simp [upd, hm]
    · rw [if_neg hc]
      funext m
      by_cases hm : m = j
      · subst hm
        have hb : bflip orig i0 m = false := hflip.trans (decide_eq_false hc)
        simp [hb, condFlip, hAj]
      · simp [hm]
  rw [hdpa1]
  have hD1 : (fun m => if m = j then condFlip (bflip orig i0 j) (orig j)
      else Aarr rt sc orig i0 (j + 1) m) (j + 1) =
      condFlip (bflip orig i0 (j + 1)) (orig (j + 1)) := by
    simp [show j + 1 ≠ j by omega, hAj1]
  have hR1 : Aarr rt sc orig i0 j (j + 1) =
      gdiv sc (rt (nsq (orig (j + 1)))) (condFlip (bflip orig i0 (j + 1)) (orig (j + 1))) := by
    simp [Aarr, show ¬(j + 1 < j) by omega, show j + 1 ≠ j by omega, show j + 1 ≤ i0 by omega]
  have hRj : Aarr rt sc orig i0 j j = condFlip (bflip orig i0 j) (orig j) := by
    simp [Aarr, show ¬(j < j) by omega]
  have hRlt : ∀ m, m < j → Aarr rt sc orig i0 j m = orig m := by
    intro m hm
    simp [Aarr, hm]
  have hLlt : ∀ m, m < j + 1 → Aarr rt sc orig i0 (j + 1) m = orig m := by
    intro m hm
    simp [Aarr, hm]
  have hRgt : ∀ m, j + 1 < m → Aarr rt sc orig i0 j m = Aarr rt sc orig i0 (j + 1) m := by
    intro m hm
    simp [Aarr, show ¬(m < j) by omega, show m ≠ j by omega, show ¬(m < j + 1) by omega,
      show m ≠ j + 1 by omega]
  rw [Prod.mk.injEq]
  refine ⟨?_, rfl⟩
  by_cases hg : rt (nsq (orig (j + 1))) ≠ 0 ∧ rt (nsq (orig (j + 1))) ≠ 1
  · rw [if_pos hg]
    funext m
    rcases Nat.lt_trichotomy m (j + 1) with hm1 | hm1 | hm1
    · rw [upd_other _ _ _ _ (by omega : m ≠ j + 1)]
      by_cases hm : m = j
      · subst hm
        simp [hRj]
      · simp [hm, hLlt m hm1, hRlt m (by omega : m < j)]
    · subst hm1
      rw [upd_self, hD1, hR1, gdiv, if_pos hg]
    · rw [upd_other _ _ _ _ (by omega : m ≠ j + 1)]
      simp [show m ≠ j by omega, hRgt m hm1]
  · rw [if_neg hg]
    funext m
    rcases Nat.lt_trichotomy m (j + 1) with hm1 | hm1 | hm1
    · by_cases hm : m = j
      · subst hm
        simp [hRj]
      · simp [hm, hLlt m hm1, hRlt m (by omega : m < j)]
    · subst hm1
      simp [show j + 1 ≠ j by omega, hAj1, hR1, gdiv, hg]
    · simp [show m ≠ j by omega, hRgt m hm1]

theorem backWalk_char (rt : ℚ → ℚ) (sc : ℚ → Vec3 → Vec3) (orig : ℕ → Vec3) (i0 : ℕ) :
    ∀ k, k ≤ i0 →
      backWalk rt sc k (Aarr rt sc orig i0 k, rt (nsq (orig k))) =
        (Aarr rt sc orig i0 0, rt (nsq (orig 0))) := by
  intro k
  induction k with
  | zero => intro _; rfl
  | succ j ih =>
    intro hk
    show backWalk rt sc j (backStep rt sc (Aarr rt sc orig i0 (j + 1), rt (nsq (orig (j + 1)))) j) = _
    rw [backStep_char rt sc orig i0 j (by omega)]
    exact ih (by omega)

theorem Aarr_top (rt : ℚ → ℚ) (sc : ℚ → Vec3 → Vec3) (orig : ℕ → Vec3) (i0 : ℕ) :
    Aarr rt sc orig i0 i0 = orig := by
  funext m
  rcases Nat.lt_trichotomy m i0 with hm | hm | hm
  · simp [Aarr, hm]
  · subst hm
    simp [Aarr, show ¬(m < m) by omega, bflip_self, condFlip]
  · simp [Aarr, show ¬(m < i0) by omega, show m ≠ i0 by omega, show ¬(m ≤ i0) by omega]

theorem back_phase (rt : ℚ → ℚ) (sc : ℚ → Vec3 → Vec3) (orig : ℕ → Vec3) (i0 : ℕ) :
    finalNorm sc (backWalk rt sc i0 (orig, rt (nsq (orig i0)))) 0 = backSpec rt sc orig i0 := by
  have h0 := backWalk_char rt sc orig i0 i0 le_rfl
  rw [Aarr_top] at h0
  rw [h0]
  funext m
  simp only [finalNorm]
  by_cases hg : rt (nsq (orig 0)) ≠ 0 ∧ rt (nsq (orig 0)) ≠ 1
  · rw [if_pos hg]
    by_cases hm : m = 0
    · subst hm
      rw [upd_self]
      simp [Aarr, show ¬(0 < 0) by omega, backSpec, gdiv, hg, Nat.zero_le, condFlip]
    · rw [upd_other _ _ _ _ hm]
      simp only [Aarr, backSpec]
      rw [if_neg (by omega : ¬(m < 0)), if_neg hm]
  · rw [if_neg hg]
    by_cases hm : m = 0
    · subst hm
      simp [Aarr, show ¬(0 < 0) by omega, backSpec, gdiv, hg, Nat.zero_le]
    · simp only [Aarr, backSpec]
      rw [if_neg (by omega : ¬(m < 0)), if_neg hm]

theorem guard_upd (sc : ℚ → Vec3 → Vec3) (c : ℚ) (f : ℕ → Vec3) (j : ℕ) :
    (if c ≠ 0 ∧ c ≠ 1 then upd f j (sc c (f j)) else f) =
      fun m => if m = j then gdiv sc c (f j) else f m := by
  by_cases hg : c ≠ 0 ∧ c ≠ 1
  · rw [if_pos hg]
    funext m
    by_cases hm : m = j
    · subst hm
      rw [upd_self]
      simp [gdiv, hg]
    · simp [upd, hm]
  · rw [if_neg hg]
    funext m
    by_cases hm : m = j
    · subst hm
      simp [gdiv, hg]
    · simp [hm]

theorem finalNorm_eq (sc : ℚ → Vec3 → Vec3) (st : (ℕ → Vec3) × ℚ) (j : ℕ) :
    finalNorm sc st j = fun m => if m = j then gdiv sc st.2 (st.1 j) else st.1 m :=
  guard_upd sc st.2 st.1 j

theorem fwdStep_char (rt : ℚ → ℚ) (sc : ℚ → Vec3 → Vec3) (orig : ℕ → Vec3) (i0 i : ℕ)
    (h : i0 + 1 ≤ i) :
    fwdStep rt sc (FAarr rt sc orig i0 i, LNf rt sc orig i0 i) i =
      (FAarr rt sc orig i0 (i + 1), LNf rt sc orig i0 (i + 1)) := by
  have hFi : FAarr rt sc orig i0 i i = orig i := by simp [FAarr]
  have hfl : fflip orig (backSpec rt sc orig i0 i0) i0 i =
      decide (nsq (orig i) < nsq (fun a => orig i a - FAarr rt sc orig i0 i (i - 1) a)) := by
    by_cases hi : i = i0 + 1
    · subst hi
      have hF : FAarr rt sc orig i0 (i0 + 1) (i0 + 1 - 1) = backSpec rt sc orig i0 i0 := by
        simp [FAarr, Nat.add_sub_cancel, show ¬(i0 + 1 ≤ i0) by omega]
      rw [hF, fflip_step_base]
    · have hF : FAarr rt sc orig i0 i (i - 1) =
          condFlip (fflip orig (backSpec rt sc orig i0 i0) i0 (i - 1)) (orig (i - 1)) := by
        simp [FAarr, show ¬(i ≤ i - 1) by omega, show i - 1 ≠ i0 by omega]
      rw [hF, fflip_step orig _ i0 i (by omega)]
  simp only [fwdStep, hFi]
  have hdpa1 : (if nsq (orig i) < nsq (fun a => orig i a - FAarr rt sc orig i0 i (i - 1) a)
      then upd (FAarr rt sc orig i0 i) i (flip3 (orig i)) else FAarr rt sc orig i0 i) =
      fun m => if m = i then condFlip (fflip orig (backSpec rt sc orig i0 i0) i0 i) (orig i)
        else FAarr rt sc orig i0 i m := by
    by_cases hc : nsq (orig i) < nsq (fun a => orig i a - FAarr rt sc orig i0 i (i - 1) a)
    · rw [if_pos hc]
      funext m
      by_cases hm : m = i
      · subst hm
        have hb : fflip orig (backSpec rt sc orig i0 i0) i0 m = true :=
          hfl.trans (decide_eq_true hc)
        simp [upd, hb, condFlip]
      · simp [upd, hm]
    · rw [if_neg hc]
      funext m
      by_cases hm : m = i
      · subst hm
        have hb : fflip orig (backSpec rt sc orig i0 i0) i0 m = false :=
          hfl.trans (decide_eq_false hc)
        simp [hb, condFlip, hFi]
      · simp [hm]
  rw [hdpa1, guard_upd, Prod.mk.injEq]
  refine ⟨?_, by simp [LNf, show i + 1 ≠ i0 + 1 by omega, Nat.add_sub_cancel]⟩
  funext m
  have hne : i - 1 ≠ i := by omega
  by_cases hio : i - 1 = i0
  · have hLN : LNf rt sc orig i0 i = rt (nsq (backSpec rt sc orig i0 i0)) := by
      simp [LNf, show i = i0 + 1 by omega]
    by_cases hm1 : m = i - 1
    · subst hm1
      have hFn : FAarr rt sc orig i0 i (i - 1) = backSpec rt sc orig i0 i0 := by
        simp [FAarr, hio, show ¬(i ≤ i0) by omega]
      have hR : FAarr rt sc orig i0 (i + 1) (i - 1) =
          gdiv sc (rt (nsq (backSpec rt sc orig i0 i0))) (backSpec rt sc orig i0 i0) := by
        simp [FAarr, hio, show ¬(i + 1 ≤ i0) by omega, show i0 ≠ i + 1 - 1 by omega,
          show i0 ≠ i by omega]
      simp [hne, hFn, hR, hLN]
    · by_cases hm2 : m = i
      · subst hm2
        have hR : FAarr rt sc orig i0 (m + 1) m =
            condFlip (fflip orig (backSpec rt sc orig i0 i0) i0 m) (orig m) := by
          simp [FAarr, show ¬(m + 1 ≤ m) by omega, Nat.add_sub_cancel, show m ≠ i0 by omega]
        simp [hm1, hR]
      · have hK : FAarr rt sc orig i0 (i + 1) m = FAarr rt sc orig i0 i m := by
          rcases Nat.lt_trichotomy m i with hmi | hmi | hmi
          · simp [FAarr, show ¬(i + 1 ≤ m) by omega, show m ≠ i + 1 - 1 by omega,
              show m ≠ i by omega, show ¬(i ≤ m) by omega, show m ≠ i - 1 by omega]
          · exact absurd hmi hm2
          · simp [FAarr, show i + 1 ≤ m by omega, show i ≤ m by omega]
        simp [hm1, hm2, hK]
  · have hLN : LNf rt sc orig i0 i = rt (nsq (orig (i - 1))) := by
      simp [LNf, show i ≠ i0 + 1 by omega]
    by_cases hm1 : m = i - 1
    · subst hm1
      have hFn : FAarr rt sc orig i0 i (i - 1) =
          condFlip (fflip orig (backSpec rt sc orig i0 i0) i0 (i - 1)) (orig (i - 1)) := by
        simp [FAarr, show ¬(i ≤ i - 1) by omega, hio]
      have hR : FAarr rt sc orig i0 (i + 1) (i - 1) =
          gdiv sc (rt (nsq (orig (i - 1))))
            (condFlip (fflip orig (backSpec rt sc orig i0 i0) i0 (i - 1)) (orig (i - 1))) := by
        simp [FAarr, show ¬(i + 1 ≤ i - 1) by omega, show i - 1 ≠ i + 1 - 1 by omega,
          show i - 1 ≠ i by omega, hio, show i0 < i - 1 by omega]
      simp [hne, hFn, hR, hLN]
    · by_cases hm2 : m = i
      · subst hm2
        have hR : FAarr rt sc orig i0 (m + 1) m =
            condFlip (fflip orig (backSpec rt sc orig i0 i0) i0 m) (orig m) := by
          simp [FAarr, show ¬(m + 1 ≤ m) by omega, Nat.add_sub_cancel, show m ≠ i0 by omega]
        simp [hm1, hR]
      · have hK : FAarr rt sc orig i0 (i + 1) m = FAarr rt sc orig i0 i m := by
          rcases Nat.lt_trichotomy m i with hmi | hmi | hmi
          · simp [FAarr, show ¬(i + 1 ≤ m) by omega, show m ≠ i + 1 - 1 by omega,
              show m ≠ i by omega, show ¬(i ≤ m) by omega, show m ≠ i - 1 by omega]
          · exact absurd hmi hm2
          · simp [FAarr, show i + 1 ≤ m by omega, show i ≤ m by omega]
        simp [hm1, hm2, hK]

theorem fwdWalk_char (rt : ℚ → ℚ) (sc : ℚ → Vec3 → Vec3) (orig : ℕ → Vec3) (i0 : ℕ) :
    ∀ c i, i0 + 1 ≤ i →
      fwdWalk rt sc c i (FAarr rt sc orig i0 i, LNf rt sc orig i0 i) =
        (FAarr rt sc orig i0 (i + c), LNf rt sc orig i0 (i + c)) := by
  intro c
  induction c with
  | zero => intro i h; rfl
  | succ cc ih =>
    intro i h
    show fwdWalk rt sc cc (i + 1)
      (fwdStep rt sc (FAarr rt sc orig i0 i, LNf rt sc orig i0 i) i) = _
    rw [fwdStep_char rt sc orig i0 i h, ih (i + 1) (by omega),
      show i + 1 + cc = i + (cc + 1) by omega]

theorem FAarr_entry (rt : ℚ → ℚ) (sc : ℚ → Vec3 → Vec3) (orig : ℕ → Vec3) (i0 : ℕ) :
    FAarr rt sc orig i0 (i0 + 1) = backSpec rt sc orig i0 := by
  funext m
  rcases Nat.lt_trichotomy m i0 with hm | hm | hm
  · simp [FAarr, show ¬(i0 + 1 ≤ m) by omega, Nat.add_sub_cancel, show m ≠ i0 by omega,
      show ¬(i0 < m) by omega]
  · subst hm
    simp [FAarr, show ¬(m + 1 ≤ m) by omega, Nat.add_sub_cancel]
  · simp [FAarr, show i0 + 1 ≤ m by omega, backSpec, show ¬(m ≤ i0) by omega]

/-- Closed-form characterization of the continuity walk, generic in the
normalization primitive `sc`: for a valid reference index, every row of the
output is the spec-side description `walkSpec`. -/
theorem eigWalk_char (rt : ℚ → ℚ) (sc : ℚ → Vec3 → Vec3) (dpa : ℕ → Vec3) (rough : Vec3)
    (i0 n : ℕ) (h : i0 < n) (m : ℕ) (hm : m < n) :
    eigWalk rt sc n dpa rough i0 m = walkSpec rt sc dpa rough i0 m := by
  show finalNorm sc
      (fwdWalk rt sc (n - (i0 + 1)) (i0 + 1)
        (finalNorm sc (backWalk rt sc i0
          (orientSeed dpa rough i0, rt (nsq (orientSeed dpa rough i0 i0)))) 0,
         rt (nsq (finalNorm sc (backWalk rt sc i0
          (orientSeed dpa rough i0, rt (nsq (orientSeed dpa rough i0 i0)))) 0 i0))))
      (n - 1) m = _
  rw [back_phase rt sc (orientSeed dpa rough i0) i0]
  have hpair : (backSpec rt sc (orientSeed dpa rough i0) i0,
      rt (nsq (backSpec rt sc (orientSeed dpa rough i0) i0 i0))) =
      (FAarr rt sc (orientSeed dpa rough i0) i0 (i0 + 1),
       LNf rt sc (orientSeed dpa rough i0) i0 (i0 + 1)) := by
    rw [FAarr_entry]
    simp [LNf]
  rw [hpair, fwdWalk_char rt sc (orientSeed dpa rough i0) i0 (n - (i0 + 1)) (i0 + 1) le_rfl,
    show i0 + 1 + (n - (i0 + 1)) = n from by omega, finalNorm_eq]
  simp only [walkSpec]
  by_cases hm1 : m = n - 1
  · subst hm1
    rw [if_pos rfl]
    by_cases hio : n - 1 = i0
    · have hLN : LNf rt sc (orientSeed dpa rough i0) i0 n =
          rt (nsq (backSpec rt sc (orientSeed dpa rough i0) i0 i0)) := by
        simp [LNf, show n = i0 + 1 by omega]
      have hFn : FAarr rt sc (orientSeed dpa rough i0) i0 n (n - 1) =
          backSpec rt sc (orientSeed dpa rough i0) i0 i0 := by
        simp [FAarr, hio, show ¬(n ≤ i0) by omega]
      rw [hLN, hFn, if_neg (by omega : ¬(n - 1 < i0)), if_pos hio]
    · have hLN : LNf rt sc (orientSeed dpa rough i0) i0 n =
          rt (nsq (orientSeed dpa rough i0 (n - 1))) := by
        simp [LNf, show n ≠ i0 + 1 by omega]
      have hFn : FAarr rt sc (orientSeed dpa rough i0) i0 n (n - 1) =
          condFlip (fflip (orientSeed dpa rough i0)
            (backSpec rt sc (orientSeed dpa rough i0) i0 i0) i0 (n - 1))
            (orientSeed dpa rough i0 (n - 1)) := by
        simp [FAarr, show ¬(n ≤ n - 1) by omega, hio]
      rw [hLN, hFn, if_neg (by omega : ¬(n - 1 < i0)), if_neg hio]
  · rw [if_neg hm1]
    rcases Nat.lt_trichotomy m i0 with hmi | hmi | hmi
    · have hFm : FAarr rt sc (orientSeed dpa rough i0) i0 n m =
          backSpec rt sc (orientSeed dpa rough i0) i0 m := by
        simp [FAarr, show ¬(n ≤ m) by omega, show m ≠ n - 1 from hm1,
          show m ≠ i0 by omega, show ¬(i0 < m) by omega]
      rw [hFm, if_pos hmi]
    · subst hmi
      have hFm : FAarr rt sc (orientSeed dpa rough m) m n m =
          gdiv sc (rt (nsq (backSpec rt sc (orientSeed dpa rough m) m m)))
            (backSpec rt sc (orientSeed dpa rough m) m m) := by
        simp [FAarr, show ¬(n ≤ m) by omega, show m ≠ n - 1 from hm1]
      rw [hFm, if_neg (by omega : ¬(m < m)), if_pos rfl]
    · have hFm : FAarr rt sc (orientSeed dpa rough i0) i0 n m =
          gdiv sc (rt (nsq (orientSeed dpa rough i0 m)))
            (condFlip (fflip (orientSeed dpa rough i0)
              (backSpec rt sc (orientSeed dpa rough i0) i0 i0) i0 m)
              (orientSeed dpa rough i0 m)) := by
        simp [FAarr, show ¬(n ≤ m) by omega, show m ≠ n - 1 from hm1,
          show m ≠ i0 by omega, hmi]
      rw [hFm, if_neg (by omega : ¬(m < i0)), if_neg (by omega : ¬(m = i0))]

theorem nsq_flip3 (v : Vec3) : nsq (flip3 v) = nsq v := by
  simp [nsq, flip3]

theorem nsq_condFlip (b : Bool) (v : Vec3) : nsq (condFlip b v) = nsq v := by
  cases b <;> simp [condFlip, nsq_flip3]

/-- Claim C4: the continuity correction of `LLDominantEigenvector` equals its
spec-side description `walkSpec`: the candidate at the reference index is
sign-flipped exactly when its dot product with the rough direction is
negative; walking outward toward each end, each sample is sign-flipped
exactly when the squared difference between the current unnormalized
candidate and its previous already-corrected neighbor exceeds the
candidate's own squared norm (`bflip`/`fflip`); normalization of the
previous sample is deferred by one step, and the remaining endpoint is
normalized after each directional walk completes. -/
theorem dominant_walk_spec (rt : ℚ → ℚ) (eigvecs : ℕ → Vec3) (rough : Vec3) (i0 n : ℕ)
    (h : i0 < n) (m : ℕ) (hm : m < n) :
    LLDominantEigenvector rt eigvecs rough i0 n m = walkSpec rt scDiv eigvecs rough i0 m :=
  eigWalk_char rt scDiv eigvecs rough i0 n h m hm

theorem dominant_walk_spec_witness :
    1 < 3 ∧ LLDominantEigenvector id wDpa exDir 1 3 2 = walkSpec id scDiv wDpa exDir 1 2 :=
  ⟨by decide, dominant_walk_spec id wDpa exDir 1 3 (by decide) 2 (by decide)⟩

/-- Claim C6: the field returned by `LLDominantEigenvector` has unit
Euclidean norm at every time sample, for every valid reference index,
whenever the external eigensolver honors its contract of returning unit
eigenvectors and the square-root primitive sends `1` to `1`. -/
theorem LLDominantEigenvector_unit_norm (rt : ℚ → ℚ) (eigvecs : ℕ → Vec3) (Rough : Vec3)
    (i0 n : ℕ) (h : i0 < n) (hunit : ∀ m, m < n → nsq (eigvecs m) = 1) (hrt : rt 1 = 1)
    (m : ℕ) (hm : m < n) :
    nsq (LLDominantEigenvector rt eigvecs Rough i0 n m) = 1 := by
  have hog : ∀ j, j < n → nsq (orientSeed eigvecs Rough i0 j) = 1 := by
    intro j hj
    unfold orientSeed
    by_cases hd : dotv Rough (eigvecs i0) < 0
    · rw [if_pos hd]
      by_cases hji : j = i0
      · subst hji
        rw [upd_self, nsq_flip3]
        exact hunit j hj
      · rw [upd_other _ _ _ _ hji]
        exact hunit j hj
    · rw [if_neg hd]
      exact hunit j hj
  have hBm : ∀ j, j ≤ i0 → backSpec rt scDiv (orientSeed eigvecs Rough i0) i0 j =
      condFlip (bflip (orientSeed eigvecs Rough i0) i0 j) (orientSeed eigvecs Rough i0 j) := by
    intro j hj
    unfold backSpec
    rw [if_pos hj, hog j (by omega), hrt]
    simp [gdiv]
  show nsq (eigWalk rt scDiv n eigvecs Rough i0 m) = 1
  rw [eigWalk_char rt scDiv eigvecs Rough i0 n h m hm]
  simp only [walkSpec]
  by_cases hm0 : m < i0
  · rw [if_pos hm0, hBm m (by omega), nsq_condFlip]
    exact hog m hm
  · by_cases hmi : m = i0
    · rw [if_neg hm0, if_pos hmi, hBm i0 le_rfl, bflip_self]
      rw [show condFlip false (orientSeed eigvecs Rough i0 i0) = orientSeed eigvecs Rough i0 i0
        from rfl]
      rw [hog i0 (by omega), hrt]
      simp [gdiv]
      exact hog i0 (by omega)
    · rw [if_neg hm0, if_neg hmi, hog m hm, hrt]
      simp [gdiv, nsq_condFlip]
      exact hog m hm

theorem LLDominantEigenvector_unit_norm_witness :
    nsq (LLDominantEigenvector id uDpa exDir 0 2 1) = 1 :=
  LLDominantEigenvector_unit_norm id uDpa exDir 0 2 (by decide)
    (fun m _ => by
      norm_num [uDpa, nsq, Matrix.cons_val_zero, Matrix.cons_val_one, Matrix.cons_val_two,
        Matrix.head_cons, Matrix.tail_cons])
    rfl 1 (by decide)

/-- Claim C9: every normalization division of the continuity walk is
guarded: the result of the walk is unchanged if the division primitive is
replaced by any function agreeing with it on divisors different from `0`
and from `1` — so no division by zero (nor by one) is ever performed. -/
theorem walk_no_div_by_zero (rt : ℚ → ℚ) (dpa : ℕ → Vec3) (rough : Vec3) (i0 n : ℕ)
    (h : i0 < n) (sc : ℚ → Vec3 → Vec3)
    (hagree : ∀ c v, c ≠ 0 → c ≠ 1 → sc c v = scDiv c v) (m : ℕ) (hm : m < n) :
    eigWalk rt sc n dpa rough i0 m = LLDominantEigenvector rt dpa rough i0 n m := by
  rw [eigWalk_char rt sc dpa rough i0 n h m hm]
  rw [show LLDominantEigenvector rt dpa rough i0 n m = eigWalk rt scDiv n dpa rough i0 m
    from rfl]
  rw [eigWalk_char rt scDiv dpa rough i0 n h m hm]
  have hgd : ∀ c v, gdiv sc c v = gdiv scDiv c v := by
    intro c v
    unfold gdiv
    by_cases hc : c ≠ 0 ∧ c ≠ 1
    · rw [if_pos hc, if_pos hc, hagree c v hc.1 hc.2]
    · rw [if_neg hc, if_neg hc]
  have hB : backSpec rt sc (orientSeed dpa rough i0) i0 =
      backSpec rt scDiv (orientSeed dpa rough i0) i0 := by
    funext j
    unfold backSpec
    by_cases hj : j ≤ i0
    · rw [if_pos hj, if_pos hj, hgd]
    · rw [if_neg hj, if_neg hj]
  simp only [walkSpec]
  rw [hB]
  by_cases hm0 : m < i0
  · rw [if_pos hm0, if_pos hm0]
  · by_cases hmi : m = i0
    · rw [if_neg hm0, if_neg hm0, if_pos hmi, if_pos hmi, hgd]
    · rw [if_neg hm0, if_neg hm0, if_neg hmi, if_neg hmi, hgd]

theorem walk_no_div_by_zero_witness :
    eigWalk id scAlt 2 wDpa exDir 0 1 = LLDominantEigenvector id wDpa exDir 0 2 1 :=
  walk_no_div_by_zero id wDpa exDir 0 2 (by decide) scAlt
    (fun c v hc _ => by simp [scAlt, hc]) 1 (by decide)

theorem cramer3_poly (A : Fin 3 → Fin 3 → ℚ) (b : Fin 3 → ℚ) (a : Fin 3) :
    ∑ c : Fin 3, A a c * det3 (replCol A b c) = b a * det3 A := by
  rw [Fin.sum_univ_three]
  fin_cases a <;>
  · simp +decide [det3, replCol]
    ring

theorem cramer3 (A : Fin 3 → Fin 3 → ℚ) (b : Fin 3 → ℚ) (hD : det3 A ≠ 0) (a : Fin 3) :
    ∑ c : Fin 3, A a c * (det3 (replCol A b c) / det3 A) = b a := by
  calc ∑ c : Fin 3, A a c * (det3 (replCol A b c) / det3 A)
      = (∑ c : Fin 3, A a c * det3 (replCol A b c)) / det3 A := by
        rw [Finset.sum_div]
        exact Finset.sum_congr rfl fun c _ => (mul_div_assoc _ _ _).symm
    _ = b a * det3 A / det3 A := by rw [cramer3_poly]
    _ = b a := mul_div_cancel_right₀ _ hD

theorem avNoneOfSingular (lad : ℤ → ℤ → ℚ) (W : SpinSeries) (i : ℕ)
    (hD : det3 (fun r c => LLMatrix lad W i r c) = 0) :
    angular_velocity lad W i = none := by
  unfold angular_velocity solve3
  rw [if_pos hD]
  rfl

/-- Claim C5: whenever `angular_velocity` returns a vector `omega` at a time
sample, that vector satisfies the 3x3 linear system
`<Ldt> = -<LL> . omega` built from the same series at that sample. -/
theorem angular_velocity_solves (lad : ℤ → ℤ → ℚ) (W : SpinSeries) (i : ℕ)
    (h : (angular_velocity lad W i).isSome = true) (a : Fin 3) :
    LdtVector lad W i a =
      -(∑ c : Fin 3, LLMatrix lad W i a c * (angular_velocity lad W i).get h c) := by
  by_cases hD : det3 (fun r c => LLMatrix lad W i r c) = 0
  · exfalso
    rw [avNoneOfSingular lad W i hD] at h
    simp at h
  · have hval : angular_velocity lad W i =
        some (fun c => -(det3 (replCol (fun r c => LLMatrix lad W i r c)
          (fun r => LdtVector lad W i r) c) / det3 (fun r c => LLMatrix lad W i r c))) := by
      unfold angular_velocity solve3
      rw [if_neg hD]
      rfl
    have hx : (angular_velocity lad W i).get h =
        fun c => -(det3 (replCol (fun r c => LLMatrix lad W i r c)
          (fun r => LdtVector lad W i r) c) / det3 (fun r c => LLMatrix lad W i r c)) := by
      simp only [hval, Option.get_some]
    rw [hx]
    simp only [mul_neg]
    rw [Finset.sum_neg_distrib, neg_neg]
    exact (cramer3 (fun r c => LLMatrix lad W i r c) (fun r => LdtVector lad W i r) hD a).symm

set_option maxHeartbeats 1600000 in
theorem avSomeW3 : (angular_velocity lad1 W3 0).isSome = true := by
  norm_num [angular_velocity, solve3, det3, LLMatrix, Finset.sum_range_succ, llEntry,
    termLpLp, termLpLm, termLmLp, termLmLm, termLpLz, termLzLp, termLmLz, termLzLm, termLzLz,
    W3, lad1, Cx.conj, Matrix.cons_val_zero, Matrix.cons_val_one, Matrix.cons_val_two,
    Matrix.head_cons, Matrix.tail_cons]

theorem angular_velocity_solves_witness :
    LdtVector lad1 W3 0 0 =
      -(∑ c : Fin 3, LLMatrix lad1 W3 0 0 c * (angular_velocity lad1 W3 0).get avSomeW3 c) :=
  angular_velocity_solves lad1 W3 0 avSomeW3 0

/-- Claim C8 (amended part): a reference index outside `[-n_times, n_times)`
makes the very first array access of the continuity walk out of bounds, so
the operation has no defined result (the compiled code performs no bounds
check, making this undefined behavior rather than a clean failure). -/
theorem cEigWalk_out_of_range (rt : ℚ → ℚ) (n : ℕ) (dpa : ℤ → Vec3) (dpa_i : Vec3) (i0 : ℤ)
    (h : i0 < -(n : ℤ) ∨ (n : ℤ) ≤ i0) :
    cEigWalk rt n dpa dpa_i i0 = none := by
  unfold cEigWalk rdz
  rw [if_neg (by rcases h with h1 | h1 <;> omega :
    ¬(-(n : ℤ) ≤ i0 ∧ i0 < (n : ℤ)))]
  rfl

theorem cEigWalk_out_of_range_witness :
    ((5 : ℤ) < -(2 : ℤ) ∨ (2 : ℤ) ≤ (5 : ℤ)) ∧ cEigWalk id 2 c8dpa exDir 5 = none :=
  ⟨by decide, cEigWalk_out_of_range id 2 c8dpa exDir 5 (by decide)⟩

/-- Claim C8 (counterexample part): a reference index in `[-n_times, -1]`
is NOT a failure, contrary to the claim's range `[0, n_times)`: Python
negative-index wraparound applies and the walk computes a result. -/
theorem cEigWalk_negative_index_computes :
    (cEigWalk id 2 c8dpa exDir (-1)).isSome = true := by
  norm_num [cEigWalk, rdz, wrz, wrapIdx, cBackLoop, cFwdLoop, cBackStep, cFwdStep,
    cFinalNorm, dotv, nsq, flip3, scDiv, c8dpa, exDir, Matrix.cons_val_zero,
    Matrix.cons_val_one, Matrix.cons_val_two, Matrix.head_cons, Matrix.tail_cons]

/-- Claim C7 (amended part): when the resolved alignment sub-interval
collapses to zero samples, the alignment computation of `corotating_frame`
has no defined result — but only because the continuity walk's first row
read is out of bounds on the empty slice; no descriptive degenerate-window
condition is raised by the source. -/
theorem corotAlignment_degenerate_fails (rt : ℚ → ℚ) (n : ℕ) (t : ℕ → ℚ) (mnt f1 f2 : ℚ)
    (eigSlice : ℤ → Vec3) (rough : Vec3) (rot : ℕ → Vec3 → Vec3)
    (h : argminAbs (fun i => |t i - (t 0 + f2 * (mnt - t 0))|) n =
      argminAbs (fun i => |t i - (t 0 + f1 * (mnt - t 0))|) n) :
    corotAlignment rt n t mnt f1 f2 eigSlice rough rot = none := by
  simp only [corotAlignment]
  have hz : argminAbs (fun i => |t i - (t 0 + f2 * (mnt - t 0))|) n -
      argminAbs (fun i => |t i - (t 0 + f1 * (mnt - t 0))|) n = 0 := by
    rw [h]
    omega
  rw [hz]
  have hw : cEigWalk rt 0 eigSlice rough 0 = none := by
    unfold cEigWalk rdz
    rw [if_neg (by omega : ¬(-((0 : ℕ) : ℤ) ≤ (0 : ℤ) ∧ (0 : ℤ) < ((0 : ℕ) : ℤ)))]
    rfl
  rw [hw]
  rfl

theorem corotAlignment_degenerate_fails_witness :
    corotAlignment id 2 c7t 1 0 0 c7eig exDir c7rot = none :=
  corotAlignment_degenerate_fails id 2 c7t 1 0 0 c7eig exDir c7rot rfl

/-- Claim C7 (counterexample part): a window that resolves to exactly one
sample does not fail: the alignment silently computes a result from that
single sample, contrary to the claim. -/
theorem corotAlignment_one_sample_succeeds :
    (corotAlignment id 3 c7t 2 0 (1 / 2) c7eig exDir c7rot).isSome = true := by
  norm_num [corotAlignment, argminAbs, argminAbsAux, c7t, cEigWalk, rdz, wrz, wrapIdx,
    cBackLoop, cFwdLoop, cBackStep, cFwdStep, cFinalNorm, dotv, nsq, flip3, scDiv, c7eig,
    exDir, c7rot, Matrix.cons_val_zero, Matrix.cons_val_one, Matrix.cons_val_two,
    Matrix.head_cons, Matrix.tail_cons]
